import Mathlib

/-!
Verification development for the ReasonForge dashboard (`src/app/page.tsx`,
`src/unnamed/part_000`).

The embedding models, character by character, the response-normalization
pipeline of `handleAnalyze` (the two global regex replaces
`.replace(/```json\n?/g, '')` and `.replace(/```\n?/g, '')`, the `.trim()`,
and `JSON.parse`), the history-store operations (prepend, update-by-id with
object-spread patching), the localStorage save/load effects, the submit
gates of both flows, and `JSON.stringify` for the persisted records.

Modelling conventions:
* strings are Lean `String`s (sequences of Unicode scalar values); JavaScript
  strings are UTF-16 sequences, so lone surrogates are out of scope, and
  `String.length` counts characters rather than UTF-16 units;
* JSON numeric literals are modelled as integers (`Int`); every number the
  application itself writes into a record is an integer, and IEEE-754 float
  semantics is out of scope, so the model parser accepts only integer
  literals;
* the whitespace set is the JSON whitespace set (space, tab, LF, CR); the
  JavaScript `trim()` additionally removes exotic Unicode whitespace, which
  is out of scope;
* `JSON.parse` is modelled as: drop whitespace from both ends, parse one
  value, require the input to be exhausted.  This is extensionally the
  ECMA-404 behaviour (a parsed document always ends in a non-whitespace
  character, so pre-trimming the ends is equivalent to allowing trailing
  whitespace after the value);
* objects are association lists in insertion order, as `JSON.parse` and
  `JSON.stringify` preserve insertion order for non-numeric keys; inputs
  with duplicate keys (which the application never produces) keep both
  entries here where JavaScript would keep the last.
-/

set_option maxHeartbeats 1600000
set_option maxRecDepth 4096

/-! ## Characters and whitespace -/

/-- JSON whitespace (also the portion of JavaScript `trim()` whitespace that
can occur in the data handled here). -/
def isWsChar (c : Char) : Bool := c = ' ' || c = '\t' || c = '\n' || c = '\r'

/-- ASCII decimal digit test, via code points. -/
def isDigitC (c : Char) : Bool := 48 ≤ c.toNat && c.toNat ≤ 57

/-- Drop leading whitespace. -/
def skipWs (l : List Char) : List Char := l.dropWhile isWsChar

/-- Drop trailing whitespace. -/
def trimRightWs (l : List Char) : List Char := (l.reverse.dropWhile isWsChar).reverse

/-- Drop whitespace from both ends: the model of JavaScript `String.trim()`. -/
def trimWs (l : List Char) : List Char := skipWs (trimRightWs l)

/-! ## Substring scanning and the fence-stripping regex replaces -/

/-- `startsWithL pat l` holds when `pat` is a prefix of `l`. -/
def startsWithL : List Char → List Char → Bool
  | [], _ => true
  | _ :: _, [] => false
  | p :: ps, c :: cs => if p = c then startsWithL ps cs else false

/-- `hasSubstrL pat l` holds when `pat` occurs contiguously in `l`. -/
def hasSubstrL (pat : List Char) : List Char → Bool
  | [] => startsWithL pat []
  | c :: cs => startsWithL pat (c :: cs) || hasSubstrL pat cs

/-- Drop one leading newline if present: the `\n?` part of the fence regexes. -/
def dropNl : List Char → List Char
  | '\n' :: r => r
  | l => l

/-- One pass of `String.replace(/PAT\n?/g, '')` for a literal pattern `pat`:
scan left to right, delete every non-overlapping occurrence of `pat` together
with one optional following newline.  `fuel` bounds the recursion and is
always called with at least the input length, which suffices because every
step consumes at least one character. -/
def stripAllF (pat : List Char) : Nat → List Char → List Char
  | 0, l => l
  | _ + 1, [] => []
  | f + 1, c :: cs =>
    if startsWithL pat (c :: cs) then
      stripAllF pat f (dropNl ((c :: cs).drop pat.length))
    else c :: stripAllF pat f cs

/-- The literal pattern of the first replace, `/```json\n?/g`. -/
def fenceJsonPat : List Char := ['`', '`', '`', 'j', 's', 'o', 'n']

/-- The literal pattern of the second replace, `/```\n?/g`. -/
def fencePat : List Char := ['`', '`', '`']

/-- `response.replace(/```json\n?/g, '')` from `handleAnalyze`. -/
def stripJsonFence (l : List Char) : List Char := stripAllF fenceJsonPat l.length l

/-- `.replace(/```\n?/g, '')` from `handleAnalyze`. -/
def stripFence (l : List Char) : List Char := stripAllF fencePat l.length l

/-- The whole `cleanJson` computation of `handleAnalyze` (page.tsx:419):
both global replaces followed by `.trim()`. -/
def cleanResponse (s : String) : String :=
  String.mk (trimWs (stripFence (stripJsonFence s.data)))

/-! ## The JSON value type -/

/-- JSON values as produced by `JSON.parse`.  Numbers are modelled as
integers (see the header comment); objects are insertion-ordered
association lists. -/
inductive Json where
  | null : Json
  | bool (b : Bool) : Json
  | num (n : Int) : Json
  | str (s : String) : Json
  | arr (xs : List Json) : Json
  | obj (kvs : List (String × Json)) : Json

/-! ## The JSON parser (model of `JSON.parse`) -/

/-- Value of a hexadecimal digit character. -/
def hexVal (c : Char) : Nat :=
  if isDigitC c then c.toNat - 48
  else if 97 ≤ c.toNat && c.toNat ≤ 102 then c.toNat - 87
  else c.toNat - 55

/-- Hexadecimal digit test (both cases). -/
def isHexC (c : Char) : Bool :=
  isDigitC c || (97 ≤ c.toNat && c.toNat ≤ 102) || (65 ≤ c.toNat && c.toNat ≤ 70)

/-- Parse the body of a JSON string literal, positioned just after the
opening quote; returns the decoded characters and the input after the
closing quote.  Escapes and the rejection of raw control characters follow
ECMA-404.  Surrogate `\u` escapes are out of scope (`Char.ofNat` maps
invalid scalar values to a default), as in the header comment. -/
def parseStrChars : List Char → Option (List Char × List Char)
  | [] => none
  | '"' :: r => some ([], r)
  | '\\' :: '"' :: r => (parseStrChars r).map fun p => ('"' :: p.1, p.2)
  | '\\' :: '\\' :: r => (parseStrChars r).map fun p => ('\\' :: p.1, p.2)
  | '\\' :: '/' :: r => (parseStrChars r).map fun p => ('/' :: p.1, p.2)
  | '\\' :: 'b' :: r => (parseStrChars r).map fun p => ('\x08' :: p.1, p.2)
  | '\\' :: 'f' :: r => (parseStrChars r).map fun p => ('\x0c' :: p.1, p.2)
  | '\\' :: 'n' :: r => (parseStrChars r).map fun p => ('\n' :: p.1, p.2)
  | '\\' :: 'r' :: r => (parseStrChars r).map fun p => ('\r' :: p.1, p.2)
  | '\\' :: 't' :: r => (parseStrChars r).map fun p => ('\t' :: p.1, p.2)
  | '\\' :: 'u' :: h1 :: h2 :: h3 :: h4 :: r =>
    if isHexC h1 && isHexC h2 && isHexC h3 && isHexC h4 then
      (parseStrChars r).map fun p =>
        (Char.ofNat (4096 * hexVal h1 + 256 * hexVal h2 + 16 * hexVal h3 + hexVal h4)
          :: p.1, p.2)
    else none
  | '\\' :: _ => none
  | c :: r =>
    if c.toNat < 32 then none
    else (parseStrChars r).map fun p => (c :: p.1, p.2)

/-- Numeric value of a digit string, most significant digit first. -/
def natOfChars (l : List Char) : Nat := l.foldl (fun a c => 10 * a + (c.toNat - 48)) 0

/-- Parse an unsigned JSON integer (leading zeros rejected, per the JSON
number grammar). -/
def parseNatPart (l : List Char) : Option (Nat × List Char) :=
  let ds := l.takeWhile isDigitC
  if ds.isEmpty then none
  else if 2 ≤ ds.length && ds.headD 'x' = '0' then none
  else some (natOfChars ds, l.drop ds.length)

/-- Parse a JSON number (integer grammar: optional minus then digits). -/
def parseNum (l : List Char) : Option (Json × List Char) :=
  if l.headD 'x' = '-' then
    (parseNatPart l.tail).map fun p => (Json.num (-(p.1 : Int)), p.2)
  else
    (parseNatPart l).map fun p => (Json.num (p.1 : Int), p.2)

mutual

/-- Parse one JSON value after skipping leading whitespace.  `fuel` bounds
the recursion; the top-level entry point supplies `length + 1`, which is
enough for every input the grammar accepts, because each unit of fuel spent
on the way into a nested value consumes at least one character of a
well-formed document (see the print–parse theorem below, which is proved
for every sufficient fuel). -/
def parseVal : Nat → List Char → Option (Json × List Char)
  | 0, _ => none
  | f + 1, l =>
    let l1 := skipWs l
    if l1.isEmpty then none
    else
      let c := l1.headD 'x'
      let cs := l1.tail
      if c = 'n' then
        if startsWithL ['u', 'l', 'l'] cs then some (Json.null, cs.drop 3) else none
      else if c = 't' then
        if startsWithL ['r', 'u', 'e'] cs then some (Json.bool true, cs.drop 3) else none
      else if c = 'f' then
        if startsWithL ['a', 'l', 's', 'e'] cs then some (Json.bool false, cs.drop 4) else none
      else if c = '"' then
        (parseStrChars cs).map fun p => (Json.str (String.mk p.1), p.2)
      else if c = '[' then
        let cs1 := skipWs cs
        if cs1.headD 'x' = ']' then some (Json.arr [], cs1.tail)
        else (parseItems f cs1).map fun p => (Json.arr p.1, p.2)
      else if c = '\x7b' then
        let cs1 := skipWs cs
        if cs1.headD 'x' = '\x7d' then some (Json.obj [], cs1.tail)
        else (parseMembers f cs1).map fun p => (Json.obj p.1, p.2)
      else parseNum l1

/-- Parse one or more comma-separated array elements followed by `]`. -/
def parseItems : Nat → List Char → Option (List Json × List Char)
  | 0, _ => none
  | f + 1, l =>
    match parseVal f l with
    | none => none
    | some (v, r) =>
      let r1 := skipWs r
      if r1.headD 'x' = ',' then (parseItems f r1.tail).map fun p => (v :: p.1, p.2)
      else if r1.headD 'x' = ']' then some ([v], r1.tail)
      else none

/-- Parse one or more comma-separated object members followed by `}`. -/
def parseMembers : Nat → List Char → Option (List (String × Json) × List Char)
  | 0, _ => none
  | f + 1, l =>
    if l.headD 'x' = '"' then
      match parseStrChars l.tail with
      | none => none
      | some (k, r1) =>
        let r2 := skipWs r1
        if r2.headD 'x' = ':' then
          match parseVal f r2.tail with
          | none => none
          | some (v, r3) =>
            let r4 := skipWs r3
            if r4.headD 'x' = ',' then
              (parseMembers f (skipWs r4.tail)).map fun p => ((String.mk k, v) :: p.1, p.2)
            else if r4.headD 'x' = '\x7d' then some ([(String.mk k, v)], r4.tail)
            else none
        else none
    else none

end

/-- Parse a whole document: one value, with the input exhausted. -/
def parseTop (l : List Char) : Option Json :=
  match parseVal (l.length + 1) l with
  | some (v, r) => if r.isEmpty then some v else none
  | none => none

/-- Model of `JSON.parse`: `none` is a thrown `SyntaxError`. -/
def jsonParse (s : String) : Option Json := parseTop (trimWs s.data)

/-! ## The JSON printer (model of `JSON.stringify`, default spacing) -/

/-- Escape one character the way `JSON.stringify` quotes string contents. -/
def escapeChar (c : Char) : List Char :=
  if c = '"' then ['\\', '"']
  else if c = '\\' then ['\\', '\\']
  else if c = '\x08' then ['\\', 'b']
  else if c = '\x0c' then ['\\', 'f']
  else if c = '\n' then ['\\', 'n']
  else if c = '\r' then ['\\', 'r']
  else if c = '\t' then ['\\', 't']
  else if c.toNat < 32 then
    ['\\', 'u', '0', '0', Nat.digitChar (c.toNat / 16), Nat.digitChar (c.toNat % 16)]
  else [c]

/-- Escape a whole string body. -/
def escapeStr : List Char → List Char
  | [] => []
  | c :: r => escapeChar c ++ escapeStr r

/-- Decimal digit characters of a natural number, most significant first. -/
def natChars (n : Nat) : List Char :=
  if n = 0 then ['0'] else ((Nat.digits 10 n).map Nat.digitChar).reverse

/-- Decimal rendering of an integer. -/
def intChars (n : Int) : List Char :=
  if n < 0 then '-' :: natChars n.natAbs else natChars n.natAbs

mutual

/-- Characters of `JSON.stringify(v)` (no indentation argument, as in the
save effect at page.tsx:385). -/
def render : Json → List Char
  | .null => ['n', 'u', 'l', 'l']
  | .bool b => if b then ['t', 'r', 'u', 'e'] else ['f', 'a', 'l', 's', 'e']
  | .num n => intChars n
  | .str s => '"' :: (escapeStr s.data ++ ['"'])
  | .arr [] => ['[', ']']
  | .arr (x :: xs) => '[' :: (renderItems x xs ++ [']'])
  | .obj [] => ['\x7b', '\x7d']
  | .obj (kv :: kvs) => '\x7b' :: (renderMembers kv kvs ++ ['\x7d'])
  termination_by j => sizeOf j
  decreasing_by all_goals (simp_wf; try omega)

/-- Comma-separated renderings of a nonempty element list. -/
def renderItems : Json → List Json → List Char
  | x, [] => render x
  | x, y :: ys => render x ++ ',' :: renderItems y ys
  termination_by x xs => sizeOf x + sizeOf xs
  decreasing_by all_goals (simp_wf; try omega)

/-- Comma-separated renderings of a nonempty member list. -/
def renderMembers : String × Json → List (String × Json) → List Char
  | (k, v), [] => '"' :: (escapeStr k.data ++ '"' :: ':' :: render v)
  | (k, v), kv2 :: kvs =>
    ('"' :: (escapeStr k.data ++ '"' :: ':' :: render v)) ++ ',' :: renderMembers kv2 kvs
  termination_by kv kvs => sizeOf kv + sizeOf kvs
  decreasing_by all_goals (simp_wf; try omega)

end

/-! ## Application data model (`AnalysisItem`, page.tsx:142-150) -/

/-- The `status` union of `AnalysisItem`. -/
inductive AnalysisStatus where
  | completed : AnalysisStatus
  | in_progress : AnalysisStatus
  | failed : AnalysisStatus
deriving DecidableEq

/-- An `AnalysisItem` record.  `confidence` is a required numeric field in
the source (initialized to `0` at creation; the dashboard treats `0` as "no
confidence reported", see the `a.confidence > 0` filter at page.tsx:499). -/
structure AnalysisItem where
  id : String
  problem : String
  timestamp : Int
  confidence : Int
  status : AnalysisStatus
  result : Option Json
  topic : Option String

/-- The fields a history update may overwrite: the object-spread patches
`{ ...item, result, confidence, status }` (page.tsx:432) and
`{ ...item, status }` (page.tsx:440). -/
structure Patch where
  confidence? : Option Int
  status? : Option AnalysisStatus
  result? : Option Json

/-- Merge a patch over a record, the object-spread semantics: present patch
fields overwrite, absent ones keep the record's value. -/
def Patch.apply (p : Patch) (it : AnalysisItem) : AnalysisItem :=
  { it with
    confidence := p.confidence?.getD it.confidence
    status := p.status?.getD it.status
    result := match p.result? with | some j => some j | none => it.result }

/-- The update-by-id operation: `prev.map(item => item.id === analysisId ?
{ ...item, patch } : item)` (page.tsx:430-434, 438-442). -/
def updateById (l : List AnalysisItem) (id : String) (p : Patch) : List AnalysisItem :=
  l.map fun it => if it.id = id then p.apply it else it

/-! ## `extractTopic` (page.tsx:479-488) -/

/-- The keyword list scanned by `extractTopic`. -/
def topicKeywords : List String :=
  ["employee", "student", "climate", "business", "health", "technology", "education"]

/-- `keyword.charAt(0).toUpperCase() + keyword.slice(1)`. -/
def capitalizeFirst (k : String) : String :=
  match k.data with
  | [] => ""
  | c :: r => String.mk (c.toUpper :: r)

/-- `extractTopic`: lowercase, split on single spaces, return the first
keyword contained in some word, else `"General"`. -/
def extractTopic (p : String) : String :=
  let ws := p.toLower.splitOn " "
  match topicKeywords.find? (fun k => ws.any fun w => hasSubstrL k.data w.data) with
  | some k => capitalizeFirst k
  | none => "General"

/-! ## The analysis operation (`handleAnalyze`, page.tsx:390-447) -/

/-- Errors that can be thrown inside the `try` block of `handleAnalyze`: a
rejected gateway call, or the `SyntaxError` of `JSON.parse` on the cleaned
text (the error value identifies the offending parse input). -/
inductive JsError where
  | transport (msg : String) : JsError
  | syntaxError (offending : String) : JsError

/-- What the awaited gateway call yields: the external contract is
`string | object` on success, or a rejection. -/
inductive RawResponse where
  | str (s : String) : RawResponse
  | obj (j : Json) : RawResponse

/-- Outcome of the awaited `callAIAgent` invocation. -/
inductive GatewayOutcome where
  | ok (r : RawResponse) : GatewayOutcome
  | reject (msg : String) : GatewayOutcome

/-- The response-normalization step inside the `try` block
(page.tsx:415-423): strings are fence-stripped, trimmed and parsed; objects
pass through unchanged. -/
def normalizeResponse : RawResponse → Except JsError Json
  | .str s =>
    match jsonParse (cleanResponse s) with
    | some j => .ok j
    | none => .error (.syntaxError (cleanResponse s))
  | .obj j => .ok j

/-- The `try` block body after the record append: await the gateway, then
normalize. -/
def handleAnalyzeTry : GatewayOutcome → Except JsError Json
  | .reject msg => .error (.transport msg)
  | .ok r => normalizeResponse r

/-- Field lookup on an association-list object (first match). -/
def lookupKV : List (String × Json) → String → Option Json
  | [], _ => none
  | (k', v) :: r, k => if k' = k then some v else lookupKV r k

/-- `j.field` access with optional chaining: `undefined` on non-objects. -/
def getField : Json → String → Option Json
  | .obj kvs, k => lookupKV kvs k
  | _, _ => none

/-- `parsedResult.uncertainty_assessment?.overall_confidence || 0`
(page.tsx:425).  A numeric value is kept (`0` is falsy and `|| 0` maps it to
`0` again); a missing chain or a non-numeric value yields `0` (truthy
non-number values are out of scope, as `overall_confidence` is typed as a
number). -/
def extractedConfidence (j : Json) : Int :=
  match getField j "uncertainty_assessment" with
  | some ua =>
    match getField ua "overall_confidence" with
    | some (.num n) => n
    | _ => 0
  | none => 0

/-- The submit gate of `handleAnalyze` (page.tsx:391):
`!currentProblem.trim() || currentProblem.length < 10` rejects. -/
def gateRejects (p : String) : Bool :=
  if (trimWs p.data).isEmpty then true
  else if p.length < 10 then true
  else false

/-- The record created at submission time (page.tsx:400-407): status
`in_progress`, confidence `0`, no result, topic from `extractTopic`. -/
def newAnalysisItem (p id : String) (now : Int) : AnalysisItem :=
  { id := id
    problem := p
    timestamp := now
    confidence := 0
    status := .in_progress
    result := none
    topic := some (extractTopic p) }

/-- How one `handleAnalyze` invocation ended. -/
inductive StepOutcome where
  | rejectedShort : StepOutcome
  | completed (result : Json) : StepOutcome
  | failedCaught (e : JsError) : StepOutcome

/-- Observable result of one `handleAnalyze` invocation: the history after
the run, whether the gateway was called, and the outcome.  The function is
total: the `catch` block (page.tsx:436-443) receives every thrown error, so
no exception escapes and every error is reported as `failedCaught`. -/
structure StepResult where
  history : List AnalysisItem
  calledGateway : Bool
  outcome : StepOutcome

/-- One full run of `handleAnalyze` (page.tsx:390-447) as a function of the
submitted problem, the generated id and timestamp, the gateway outcome and
the prior history. -/
def handleAnalyze (p id : String) (now : Int) (gw : GatewayOutcome)
    (hist : List AnalysisItem) : StepResult :=
  if gateRejects p then
    { history := hist, calledGateway := false, outcome := .rejectedShort }
  else
    let hist1 := newAnalysisItem p id now :: hist
    match handleAnalyzeTry gw with
    | .ok parsed =>
      { history := updateById hist1 id
          { confidence? := some (extractedConfidence parsed)
            status? := some .completed
            result? := some parsed }
        calledGateway := true
        outcome := .completed parsed }
    | .error e =>
      { history := updateById hist1 id
          { confidence? := none, status? := some .failed, result? := none }
        calledGateway := true
        outcome := .failedCaught e }

/-! ## The decomposed flow's gate (`runAnalysis`, part_000:209-211) -/

/-- Observable of the `runAnalysis` submit path in the decomposed flow. -/
structure RunResult where
  calledGateway : Bool

/-- The gate of `runAnalysis`: `if (!problemInput.trim()) return` — only a
blank (whitespace-only) problem is rejected before the gateway calls. -/
def runAnalysis (p : String) : RunResult :=
  if (trimWs p.data).isEmpty then { calledGateway := false }
  else { calledGateway := true }

/-! ## Persistence (load effect page.tsx:371-380, save effect page.tsx:383-387) -/

/-- `statusStr` for serialization: the literal strings stored in records. -/
def statusStr : AnalysisStatus → String
  | .completed => "completed"
  | .in_progress => "in_progress"
  | .failed => "failed"

/-- Inverse of `statusStr`. -/
def decodeStatus (s : String) : Option AnalysisStatus :=
  if s = "completed" then some .completed
  else if s = "in_progress" then some .in_progress
  else if s = "failed" then some .failed
  else none

/-- The JSON object `JSON.stringify` sees for one record: creation-order
keys `id, problem, timestamp, confidence, status, topic`, with `result`
appended last when present (the completed-update spread keeps the original
key order and adds `result` at the end); absent optional fields are omitted,
as `JSON.stringify` drops `undefined` properties. -/
def encodeItem (r : AnalysisItem) : Json :=
  .obj
    ([("id", .str r.id), ("problem", .str r.problem), ("timestamp", .num r.timestamp),
      ("confidence", .num r.confidence), ("status", .str (statusStr r.status))]
      ++ (match r.topic with | some t => [("topic", .str t)] | none => [])
      ++ (match r.result with | some j => [("result", j)] | none => []))

/-- The JSON value of a whole history list. -/
def encodeHistory (rs : List AnalysisItem) : Json := .arr (rs.map encodeItem)

/-- `JSON.stringify(analysisHistory)`. -/
def stringifyHistory (rs : List AnalysisItem) : String :=
  String.mk (render (encodeHistory rs))

/-- The save effect (page.tsx:383-387): the slot is overwritten only when
the in-memory list is nonempty. -/
def saveEffect (rs : List AnalysisItem) (slot : Option String) : Option String :=
  if rs.isEmpty then slot else some (stringifyHistory rs)

/-- The load effect (page.tsx:371-380), at the level of the JSON value the
state receives: a missing slot (or the falsy empty string) leaves the
initial `[]`; a parse failure is caught and also leaves `[]`; otherwise the
parsed value replaces the state wholesale. -/
def loadHistory (slot : Option String) : Json :=
  match slot with
  | none => .arr []
  | some blob =>
    match jsonParse blob with
    | some j => j
    | none => .arr []

/-- Read one record back from its JSON image (the shapes `encodeItem`
produces). -/
def decodeItem : Json → Option AnalysisItem
  | .obj (("id", .str i) :: ("problem", .str p) :: ("timestamp", .num ts)
      :: ("confidence", .num cf) :: ("status", .str st) :: rest) =>
    match decodeStatus st with
    | none => none
    | some status =>
      match rest with
      | [] =>
        some { id := i, problem := p, timestamp := ts, confidence := cf,
               status := status, result := none, topic := none }
      | [("topic", .str t)] =>
        some { id := i, problem := p, timestamp := ts, confidence := cf,
               status := status, result := none, topic := some t }
      | [("topic", .str t), ("result", j)] =>
        some { id := i, problem := p, timestamp := ts, confidence := cf,
               status := status, result := some j, topic := some t }
      | [("result", j)] =>
        some { id := i, problem := p, timestamp := ts, confidence := cf,
               status := status, result := some j, topic := none }
      | _ => none
  | _ => none

/-- Decode a list of record images. -/
def decodeItems : List Json → Option (List AnalysisItem)
  | [] => some []
  | j :: js =>
    match decodeItem j with
    | none => none
    | some r =>
      match decodeItems js with
      | none => none
      | some rs => some (r :: rs)

/-- Decode a whole persisted history value. -/
def decodeHistory : Json → Option (List AnalysisItem)
  | .arr xs => decodeItems xs
  | _ => none

/-- The fenced wrapping of a document, optionally tagged `json`: the raw
response shape the spec's normalization law quantifies over. -/
def wrapFence (tagged : Bool) (doc : String) : String :=
  (if tagged then "```json\n" else "```\n") ++ doc ++ "\n```"

/-- The record-status invariant of the data model (spec §3): `completed`
only with a present, successfully parsed result; `failed` with the result
absent. -/
def statusInv (it : AnalysisItem) : Prop :=
  (it.status = .completed → it.result.isSome = true) ∧
  (it.status = .failed → it.result = none)

/-- A concrete completed record, used for concrete instantiations. -/
def sampleItem : AnalysisItem :=
  { id := "1726000000000"
    problem := "why do employees leave companies"
    timestamp := 1726000000000
    confidence := 72
    status := .completed
    result := some (Json.obj [("problem_summary", Json.str "attrition")])
    topic := some "Employee" }

/-- A second concrete record with a distinct id. -/
def sampleItem2 : AnalysisItem :=
  { id := "1726000000001"
    problem := "what causes student burnout"
    timestamp := 1726000000001
    confidence := 0
    status := .in_progress
    result := none
    topic := some "Student" }

/-! ## Lemmas: prefix scanning -/

/-- A list starts with itself, with anything appended. -/
theorem startsWithL_refl_append : ∀ (p X : List Char), startsWithL p (p ++ X) = true
  | [], _ => rfl
  | c :: cs, X => by simp [startsWithL, startsWithL_refl_append cs X]

/-- A matched pattern is no longer than the input. -/
theorem startsWithL_le {p : List Char} :
    ∀ {l : List Char}, startsWithL p l = true → p.length ≤ l.length := by
  induction p with
  | nil => intro l _; simp
  | cons q qs ih =>
    intro l h
    cases l with
    | nil => simp [startsWithL] at h
    | cons c cs =>
      rw [startsWithL] at h
      split at h
      · simpa using Nat.succ_le_succ (ih h)
      · exact absurd h (by simp)

/-- Inside the matched region, the input agrees with the pattern. -/
theorem startsWithL_getElem {p : List Char} :
    ∀ {l : List Char}, startsWithL p l = true → ∀ i, i < p.length → l[i]? = p[i]? := by
  induction p with
  | nil => intro l _ i hi; simp at hi
  | cons q qs ih =>
    intro l h i hi
    cases l with
    | nil => simp [startsWithL] at h
    | cons c cs =>
      rw [startsWithL] at h
      split at h
      · rename_i hq
        cases i with
        | zero => simp [hq]
        | succ j =>
          simp only [List.getElem?_cons_succ]
          exact ih h j (by simpa using hi)
      · exact absurd h (by simp)

/-- A single disagreeing position refutes a prefix match. -/
theorem startsWithL_false_of_get {pat l : List Char} {i : Nat} {a b : Char}
    (hp : pat[i]? = some a) (hl : l[i]? = some b) (hab : a ≠ b) :
    startsWithL pat l = false := by
  cases hsw : startsWithL pat l with
  | false => rfl
  | true =>
    have hi : i < pat.length := by
      rcases List.getElem?_eq_some.mp hp with ⟨hlt, _⟩
      exact hlt
    have := startsWithL_getElem hsw i hi
    rw [hp, hl] at this
    exact absurd (Option.some.inj this) (Ne.symm hab)

/-- A prefix match of `X ++ Y` entirely inside `X` is a prefix match of `X`. -/
theorem startsWithL_append_left {p : List Char} :
    ∀ {X : List Char} (Y : List Char), startsWithL p (X ++ Y) = true →
      p.length ≤ X.length → startsWithL p X = true := by
  induction p with
  | nil => intro X Y _ _; cases X <;> rfl
  | cons q qs ih =>
    intro X Y h hlen
    cases X with
    | nil => simp at hlen
    | cons x xs =>
      rw [List.cons_append, startsWithL] at h
      rw [startsWithL]
      split at h
      · rename_i hq
        rw [if_pos hq]
        exact ih Y h (by simpa using hlen)
      · exact absurd h (by simp)

/-- Prefix matching is transitive. -/
theorem startsWithL_trans {a : List Char} :
    ∀ {b l : List Char}, startsWithL a b = true → startsWithL b l = true →
      startsWithL a l = true := by
  induction a with
  | nil => intro b l _ _; cases l <;> rfl
  | cons q qs ih =>
    intro b l hab hbl
    cases b with
    | nil => simp [startsWithL] at hab
    | cons x xs =>
      rw [startsWithL] at hab
      split at hab
      · rename_i hq
        cases l with
        | nil => simp [startsWithL] at hbl
        | cons c cs =>
          rw [startsWithL] at hbl
          split at hbl
          · rename_i hx
            rw [startsWithL, if_pos (hq.trans hx)]
            exact ih hab hbl
          · exact absurd hbl (by simp)
      · exact absurd hab (by simp)

/-- A prefix match at some suffix position is an occurrence. -/
theorem hasSubstr_of_start_suffix {pat sfx : List Char} (hs : startsWithL pat sfx = true) :
    ∀ {t l : List Char}, t ++ sfx = l → hasSubstrL pat l = true := by
  intro t
  induction t with
  | nil =>
    intro l hl
    cases l with
    | nil =>
      have : sfx = [] := by simpa using hl
      subst this
      simpa [hasSubstrL] using hs
    | cons c cs =>
      have : sfx = c :: cs := by simpa using hl
      subst this
      simp [hasSubstrL, hs]
  | cons x ts ih =>
    intro l hl
    cases l with
    | nil => simp at hl
    | cons c cs =>
      rw [List.cons_append] at hl
      have hx : x = c := by exact (List.cons.inj hl).1
      have hcs : ts ++ sfx = cs := (List.cons.inj hl).2
      simp [hasSubstrL, ih hcs]

/-- If a pattern's own prefix never occurs, the pattern never occurs. -/
theorem hasSubstr_mono {a b : List Char} (hab : startsWithL a b = true) :
    ∀ {l : List Char}, hasSubstrL a l = false → hasSubstrL b l = false := by
  intro l
  induction l with
  | nil =>
    intro h
    cases hb : startsWithL b [] with
    | false => simpa [hasSubstrL] using hb
    | true =>
      have : startsWithL a [] = true := startsWithL_trans hab hb
      simp [hasSubstrL, this] at h
  | cons c cs ih =>
    intro h
    rw [hasSubstrL, Bool.or_eq_false_iff] at h
    rw [hasSubstrL, Bool.or_eq_false_iff]
    refine ⟨?_, ih h.2⟩
    cases hb : startsWithL b (c :: cs) with
    | false => rfl
    | true =>
      have : startsWithL a (c :: cs) = true := startsWithL_trans hab hb
      rw [this] at h
      exact absurd h.1 (by simp)

/-- No occurrence inside `A` and a newline fence on the right rule out every
prefix match that begins inside `A`, for a newline-free pattern. -/
theorem no_cross_match {pat A : List Char} (hA : hasSubstrL pat A = false)
    (hnl : '\n' ∉ pat) (B' : List Char) :
    ∀ sfx t, t ++ sfx = A → sfx ≠ [] → startsWithL pat (sfx ++ '\n' :: B') = false := by
  intro sfx t ht hne
  cases hsw : startsWithL pat (sfx ++ '\n' :: B') with
  | false => rfl
  | true =>
    exfalso
    by_cases hlen : pat.length ≤ sfx.length
    · have hx : startsWithL pat sfx = true := startsWithL_append_left _ hsw hlen
      have := hasSubstr_of_start_suffix hx ht
      rw [this] at hA
      exact absurd hA (by simp)
    · push_neg at hlen
      have hidx : (sfx ++ '\n' :: B')[sfx.length]? = some '\n' := by
        rw [List.getElem?_append_right (Nat.le_refl _)]
        simp
      have := startsWithL_getElem hsw sfx.length hlen
      rw [hidx] at this
      have hmem : '\n' ∈ pat := by
        have hval : pat[sfx.length]? = some '\n' := this.symm
        exact List.getElem?_mem hval
      exact hnl hmem

/-! ## Lemmas: the fence-stripping scanner -/

/-- Unfolding step: no match at the head. -/
theorem stripAllF_cons_no {pat : List Char} {c : Char} {cs : List Char}
    (h : startsWithL pat (c :: cs) = false) (f : Nat) :
    stripAllF pat (f + 1) (c :: cs) = c :: stripAllF pat f cs := by
  simp [stripAllF, h]

/-- Unfolding step: a match at the head is deleted. -/
theorem stripAllF_cons_yes {pat : List Char} {c : Char} {cs : List Char}
    (h : startsWithL pat (c :: cs) = true) (f : Nat) :
    stripAllF pat (f + 1) (c :: cs) = stripAllF pat f (dropNl ((c :: cs).drop pat.length)) := by
  simp [stripAllF, h]

/-- With enough fuel, a pattern-free input is left unchanged. -/
theorem stripAllF_no_match {pat : List Char} :
    ∀ {l : List Char} {f : Nat}, l.length ≤ f → hasSubstrL pat l = false →
      stripAllF pat f l = l := by
  intro l
  induction l with
  | nil => intro f _ _; cases f <;> rfl
  | cons c cs ih =>
    intro f hf hno
    cases f with
    | zero => simp at hf
    | succ g =>
      rw [hasSubstrL, Bool.or_eq_false_iff] at hno
      rw [stripAllF_cons_no hno.1, ih (by simpa using hf) hno.2]

/-- The scanner passes over a left part in which no match can begin. -/
theorem stripAllF_append {pat : List Char} :
    ∀ {A : List Char} {f : Nat} (B : List Char), (A ++ B).length ≤ f →
      (∀ sfx t, t ++ sfx = A → sfx ≠ [] → startsWithL pat (sfx ++ B) = false) →
      stripAllF pat f (A ++ B) = A ++ stripAllF pat (f - A.length) B := by
  intro A
  induction A with
  | nil => intro f B _ _; simp
  | cons c as ih =>
    intro f B hf hA
    cases f with
    | zero => simp at hf
    | succ g =>
      have hhead : startsWithL pat ((c :: as) ++ B) = false := by
        have := hA (c :: as) [] rfl (by simp)
        simpa using this
      rw [List.cons_append, stripAllF_cons_no (by simpa using hhead) g]
      have hrec := ih B (by simpa using hf)
        (fun sfx t hts hne => hA sfx (c :: t) (by simp [← hts]) hne)
      rw [hrec]
      simp [Nat.succ_sub_succ]

/-! ## Lemmas: trimming -/

/-- `dropWhile` is idempotent. -/
theorem dropWhile_dropWhile (p : Char → Bool) (l : List Char) :
    (l.dropWhile p).dropWhile p = l.dropWhile p := by
  induction l with
  | nil => simp
  | cons c cs ih =>
    by_cases h : p c
    · simp [List.dropWhile_cons, h, ih]
    · simp [List.dropWhile_cons, h]

/-- A left part of a `dropWhile` fixed point is itself a fixed point. -/
theorem dropWhile_eq_self_append {p : Char → Bool} {A B : List Char}
    (h : List.dropWhile p (A ++ B) = A ++ B) : List.dropWhile p A = A := by
  cases A with
  | nil => simp
  | cons c as =>
    by_cases hc : p c
    · exfalso
      rw [List.cons_append, List.dropWhile_cons, if_pos hc] at h
      have hlen := congrArg List.length h
      have hle : (List.dropWhile p (as ++ B)).length ≤ (as ++ B).length :=
        (List.dropWhile_suffix p).length_le
      simp only [List.length_cons] at hlen
      omega
    · simp [List.dropWhile_cons, hc]

/-- Right trimming is idempotent. -/
theorem trimRightWs_idem (l : List Char) : trimRightWs (trimRightWs l) = trimRightWs l := by
  simp [trimRightWs, List.reverse_reverse, dropWhile_dropWhile]

/-- Left trimming preserves right-trimmedness. -/
theorem trimRightWs_skipWs {l : List Char} (h : trimRightWs l = l) :
    trimRightWs (skipWs l) = skipWs l := by
  have hrev : List.dropWhile isWsChar l.reverse = l.reverse := by
    have h2 := congrArg List.reverse h
    simpa [trimRightWs] using h2
  obtain ⟨t, ht⟩ := List.dropWhile_suffix (l := l) isWsChar
  have hsplit : l.reverse = (l.dropWhile isWsChar).reverse ++ t.reverse := by
    conv_lhs => rw [← ht]
    simp [List.reverse_append]
  rw [hsplit] at hrev
  have h3 := dropWhile_eq_self_append hrev
  show trimRightWs (skipWs l) = skipWs l
  simp only [trimRightWs, skipWs] at h3 ⊢
  rw [h3, List.reverse_reverse]

/-- The model of `trim()` is idempotent. -/
theorem trimWs_idem (l : List Char) : trimWs (trimWs l) = trimWs l := by
  have h2 := trimRightWs_skipWs (trimRightWs_idem l)
  simp only [trimWs, h2]
  simp [skipWs, dropWhile_dropWhile]

/-- A trailing newline is removed by trimming. -/
theorem trimRightWs_concat_nl (X : List Char) : trimRightWs (X ++ ['\n']) = trimRightWs X := by
  have h : isWsChar '\n' = true := by decide
  simp [trimRightWs, List.reverse_append, List.dropWhile_cons, h]

/-- A trailing newline does not change the trimmed value. -/
theorem trimWs_concat_nl (X : List Char) : trimWs (X ++ ['\n']) = trimWs X := by
  simp [trimWs, trimRightWs_concat_nl]

/-! ## Lemmas: the fence-stripping pipeline on wrapped documents -/

/-- Deleting a head match of a literal nonempty pattern. -/
theorem stripAllF_head_match {pat X : List Char} (hne : pat ≠ []) (f : Nat) :
    stripAllF pat (f + 1) (pat ++ X) = stripAllF pat f (dropNl X) := by
  cases pat with
  | nil => exact absurd rfl hne
  | cons p ps =>
    rw [List.cons_append,
      stripAllF_cons_yes (by simpa using startsWithL_refl_append (p :: ps) X) f]
    congr 1
    rw [List.length_cons, List.drop_succ_cons, List.drop_left ps X]

/-- The `json`-fence pattern cannot match at the untagged opener. -/
theorem swl_json_at3 (X : List Char) :
    startsWithL fenceJsonPat ('`' :: '`' :: '`' :: '\n' :: X) = false := by
  refine startsWithL_false_of_get (i := 3) (a := 'j') (b := '\n') (by decide) ?_ (by decide)
  simp

theorem swl_json_at2 (X : List Char) :
    startsWithL fenceJsonPat ('`' :: '`' :: '\n' :: X) = false := by
  refine startsWithL_false_of_get (i := 2) (a := '`') (b := '\n') (by decide) ?_ (by decide)
  simp

theorem swl_json_at1 (X : List Char) :
    startsWithL fenceJsonPat ('`' :: '\n' :: X) = false := by
  refine startsWithL_false_of_get (i := 1) (a := '`') (b := '\n') (by decide) ?_ (by decide)
  simp

theorem swl_json_at0 (X : List Char) :
    startsWithL fenceJsonPat ('\n' :: X) = false := by
  refine startsWithL_false_of_get (i := 0) (a := '`') (b := '\n') (by decide) ?_ (by decide)
  simp

/-- First replace on the tagged wrapper: the opening fence is deleted and a
backtick-free document passes through, leaving the closing fence. -/
theorem stripJsonFence_tagged {D : List Char} (hD7 : hasSubstrL fenceJsonPat D = false) :
    stripJsonFence (fenceJsonPat ++ '\n' :: (D ++ '\n' :: fencePat)) =
      D ++ '\n' :: fencePat := by
  unfold stripJsonFence
  have hlen : (fenceJsonPat ++ '\n' :: (D ++ '\n' :: fencePat)).length = (D.length + 11) + 1 := by
    simp [fenceJsonPat, fencePat]
    try omega
  rw [hlen, stripAllF_head_match (by decide) (D.length + 11),
    show dropNl ('\n' :: (D ++ '\n' :: fencePat)) = D ++ '\n' :: fencePat from rfl,
    stripAllF_append ('\n' :: fencePat) (by simp [fencePat]; try omega)
      (no_cross_match hD7 (by decide) fencePat),
    Nat.add_sub_cancel_left,
    stripAllF_no_match (by decide) (by decide)]

/-- First replace on the untagged wrapper: nothing matches `/```json\n?/`. -/
theorem stripJsonFence_untagged {D : List Char} (hD7 : hasSubstrL fenceJsonPat D = false) :
    stripJsonFence ('`' :: '`' :: '`' :: '\n' :: (D ++ '\n' :: fencePat)) =
      '`' :: '`' :: '`' :: '\n' :: (D ++ '\n' :: fencePat) := by
  unfold stripJsonFence
  have hlen : ('`' :: '`' :: '`' :: '\n' :: (D ++ '\n' :: fencePat)).length =
      (D.length + 7) + 1 := by
    simp [fencePat]
    try omega
  rw [hlen, stripAllF_cons_no (swl_json_at3 _) _, stripAllF_cons_no (swl_json_at2 _) _,
    stripAllF_cons_no (swl_json_at1 _) _, stripAllF_cons_no (swl_json_at0 _) _,
    stripAllF_append ('\n' :: fencePat) (by simp [fencePat])
      (no_cross_match hD7 (by decide) fencePat),
    Nat.add_sub_cancel_left,
    stripAllF_no_match (by decide) (by decide)]

/-- Second replace after the tagged first pass: the document passes through
and the closing fence collapses to a newline. -/
theorem stripFence_after {D : List Char} (hD : hasSubstrL fencePat D = false) :
    stripFence (D ++ '\n' :: fencePat) = D ++ ['\n'] := by
  unfold stripFence
  have hlen : (D ++ '\n' :: fencePat).length = D.length + 4 := by
    simp [fencePat]
  rw [hlen,
    stripAllF_append ('\n' :: fencePat) (by simp [fencePat])
      (no_cross_match hD (by decide) fencePat),
    Nat.add_sub_cancel_left]
  rfl

/-- Second replace on the untagged wrapper: both fences are deleted. -/
theorem stripFence_untagged {D : List Char} (hD : hasSubstrL fencePat D = false) :
    stripFence ('`' :: '`' :: '`' :: '\n' :: (D ++ '\n' :: fencePat)) = D ++ ['\n'] := by
  unfold stripFence
  have hlen : ('`' :: '`' :: '`' :: '\n' :: (D ++ '\n' :: fencePat)).length =
      (D.length + 7) + 1 := by
    simp [fencePat]
    try omega
  rw [hlen,
    show ('`' :: '`' :: '`' :: '\n' :: (D ++ '\n' :: fencePat)) =
      fencePat ++ ('\n' :: (D ++ '\n' :: fencePat)) from rfl,
    stripAllF_head_match (by decide) (D.length + 7),
    show dropNl ('\n' :: (D ++ '\n' :: fencePat)) = D ++ '\n' :: fencePat from rfl,
    stripAllF_append ('\n' :: fencePat) (by simp [fencePat]; try omega)
      (no_cross_match hD (by decide) fencePat),
    Nat.add_sub_cancel_left]
  rfl

/-- The full `cleanJson` computation on a fenced document whose body has no
triple backtick: exactly the trimmed document remains, for both the tagged
and the untagged fence. -/
theorem clean_wrap (tagged : Bool) (doc : String)
    (hD : hasSubstrL fencePat doc.data = false) :
    cleanResponse (wrapFence tagged doc) = String.mk (trimWs doc.data) := by
  have hD7 : hasSubstrL fenceJsonPat doc.data = false := hasSubstr_mono (by decide) hD
  cases tagged with
  | true =>
    have hdata : (wrapFence true doc).data =
        fenceJsonPat ++ '\n' :: (doc.data ++ '\n' :: fencePat) := rfl
    rw [cleanResponse, hdata, stripJsonFence_tagged hD7, stripFence_after hD,
      trimWs_concat_nl]
  | false =>
    have hdata : (wrapFence false doc).data =
        '`' :: '`' :: '`' :: '\n' :: (doc.data ++ '\n' :: fencePat) := rfl
    rw [cleanResponse, hdata, stripJsonFence_untagged hD7, stripFence_untagged hD,
      trimWs_concat_nl]

/-! ## Claim C1 -/

/-- Claim C1 (amended): for every raw response that is a document wrapped in
markdown code fences (triple backticks, optionally tagged `json`) whose body
contains no triple-backtick substring, the normalization step — stripping
the fence markers, trimming whitespace, then JSON-parsing — yields exactly
the same parsed result as parsing the unwrapped document directly.  (The
backtick-free proviso is forced by the counterexample below: the source
strips fences with global replaces, which also rewrite fence markers inside
the document.) -/
theorem c1_fenced_normalization_amended (tagged : Bool) (doc : String)
    (hD : hasSubstrL fencePat doc.data = false) :
    jsonParse (cleanResponse (wrapFence tagged doc)) = jsonParse doc := by
  rw [clean_wrap tagged doc hD]
  show parseTop (trimWs (String.mk (trimWs doc.data)).data) = parseTop (trimWs doc.data)
  rw [show (String.mk (trimWs doc.data)).data = trimWs doc.data from rfl, trimWs_idem]

/-- Witness for the amended claim C1 at a concrete fenced document. -/
theorem c1_fenced_normalization_witness :
    hasSubstrL fencePat "[1,2]".data = false ∧
    jsonParse (cleanResponse (wrapFence true "[1,2]")) = jsonParse "[1,2]" :=
  ⟨by decide, c1_fenced_normalization_amended true "[1,2]" (by decide)⟩

/-- Claim C1 counterexample: the document `{"a":"```"}` is valid JSON, yet
wrapping it in `json`-tagged fences and normalizing parses to a different
object (`{"a":""}`), because the global replaces also delete the backticks
inside the string literal.  So the claim as stated — equality for every
fenced JSON document — is false. -/
theorem c1_counterexample :
    jsonParse "\x7b\"a\":\"```\"\x7d" = some (Json.obj [("a", Json.str "```")]) ∧
    jsonParse (cleanResponse (wrapFence true "\x7b\"a\":\"```\"\x7d")) =
      some (Json.obj [("a", Json.str "")]) ∧
    jsonParse (cleanResponse (wrapFence true "\x7b\"a\":\"```\"\x7d")) ≠
      jsonParse "\x7b\"a\":\"```\"\x7d" := by
  refine ⟨rfl, rfl, fun h => ?_⟩
  have h1 : (some (Json.obj [("a", Json.str "")]) : Option Json) =
      some (Json.obj [("a", Json.str "```")]) := by
    calc (some (Json.obj [("a", Json.str "")]) : Option Json)
        = jsonParse (cleanResponse (wrapFence true "\x7b\"a\":\"```\"\x7d")) := rfl
      _ = jsonParse "\x7b\"a\":\"```\"\x7d" := h
      _ = some (Json.obj [("a", Json.str "```")]) := rfl
  have h2 := Option.some.inj h1
  injection h2 with hkvs
  injection hkvs with hkv
  injection hkv with hfst hsnd
  injection hsnd with hs
  exact absurd hs (by decide)

/-! ## Lemmas: the history store -/

/-- An update whose id occurs nowhere is the identity (helper shared by
several claims). -/
theorem updateById_not_mem {l : List AnalysisItem} {id : String} {pch : Patch}
    (h : id ∉ l.map AnalysisItem.id) : updateById l id pch = l := by
  induction l with
  | nil => rfl
  | cons a as ih =>
    simp only [List.map_cons, List.mem_cons] at h
    push_neg at h
    have htail := ih h.2
    unfold updateById at htail ⊢
    rw [List.map_cons, if_neg (by intro he; exact h.1 he.symm), htail]

/-- Patching never changes the id. -/
theorem patch_apply_id (pch : Patch) (it : AnalysisItem) : (pch.apply it).id = it.id := rfl

/-- After a passing gate and a successful normalization, the history is the
completed record at the head followed by the unchanged prior history. -/
theorem handleAnalyze_ok_history {p id : String} {now : Int} {gw : GatewayOutcome}
    {hist : List AnalysisItem} {parsed : Json} (hgate : gateRejects p = false)
    (hfresh : id ∉ hist.map AnalysisItem.id) (hty : handleAnalyzeTry gw = .ok parsed) :
    (handleAnalyze p id now gw hist).history =
      { id := id, problem := p, timestamp := now,
        confidence := extractedConfidence parsed, status := .completed,
        result := some parsed, topic := some (extractTopic p) } :: hist := by
  unfold handleAnalyze
  rw [if_neg (by simp [hgate]), hty]
  show updateById (newAnalysisItem p id now :: hist) id _ = _
  unfold updateById
  rw [List.map_cons, if_pos (show (newAnalysisItem p id now).id = id from rfl)]
  have htail : updateById hist id
      { confidence? := some (extractedConfidence parsed), status? := some .completed,
        result? := some parsed } = hist := updateById_not_mem hfresh
  unfold updateById at htail
  rw [htail]
  rfl

/-- After a passing gate and a caught error, the history is the failed
record at the head (result still absent, confidence still `0`) followed by
the unchanged prior history. -/
theorem handleAnalyze_err_history {p id : String} {now : Int} {gw : GatewayOutcome}
    {hist : List AnalysisItem} {e : JsError} (hgate : gateRejects p = false)
    (hfresh : id ∉ hist.map AnalysisItem.id) (hty : handleAnalyzeTry gw = .error e) :
    (handleAnalyze p id now gw hist).history =
      { id := id, problem := p, timestamp := now, confidence := 0,
        status := .failed, result := none, topic := some (extractTopic p) } :: hist := by
  unfold handleAnalyze
  rw [if_neg (by simp [hgate]), hty]
  show updateById (newAnalysisItem p id now :: hist) id _ = _
  unfold updateById
  rw [List.map_cons, if_pos (show (newAnalysisItem p id now).id = id from rfl)]
  have htail : updateById hist id
      { confidence? := none, status? := some .failed, result? := none } = hist :=
    updateById_not_mem hfresh
  unfold updateById at htail
  rw [htail]
  rfl

/-! ## Claim C5 -/

/-- Claim C5: appending a fresh record and updating by its id yields the
patched record at the original (head) position with every other record
unchanged, and exactly one record carries that id. -/
theorem c5_append_then_update (l : List AnalysisItem) (r : AnalysisItem) (pch : Patch)
    (hfresh : r.id ∉ l.map AnalysisItem.id) :
    updateById (r :: l) r.id pch = pch.apply r :: l ∧
    (updateById (r :: l) r.id pch).countP (fun it => decide (it.id = r.id)) = 1 := by
  have hmain : updateById (r :: l) r.id pch = pch.apply r :: l := by
    have htail : updateById l r.id pch = l := updateById_not_mem hfresh
    unfold updateById at htail ⊢
    rw [List.map_cons, if_pos rfl, htail]
  refine ⟨hmain, ?_⟩
  rw [hmain, List.countP_cons]
  have hz : l.countP (fun it => decide (it.id = r.id)) = 0 := by
    rw [List.countP_eq_zero]
    intro a ha
    have : a.id ∈ l.map AnalysisItem.id := List.mem_map_of_mem AnalysisItem.id ha
    simp only [decide_eq_true_eq]
    intro he
    exact hfresh (he ▸ this)
  rw [hz]
  simp [patch_apply_id]

/-- Witness for claim C5. -/
theorem c5_append_then_update_witness :
    (sampleItem2.id ∉ [sampleItem].map AnalysisItem.id) ∧
    (updateById (sampleItem2 :: [sampleItem]) sampleItem2.id
        { confidence? := some 55, status? := some .completed, result? := some Json.null } =
      Patch.apply
        { confidence? := some 55, status? := some .completed, result? := some Json.null }
        sampleItem2 :: [sampleItem]) :=
  ⟨by decide, (c5_append_then_update [sampleItem] sampleItem2
    { confidence? := some 55, status? := some .completed, result? := some Json.null }
    (by decide)).1⟩

/-! ## Claim C6 -/

/-- Claim C6: updating by an id that occurs nowhere in the history is a
no-op — the list keeps its length, order and elements. -/
theorem c6_update_unknown_id (l : List AnalysisItem) (id : String) (pch : Patch)
    (h : id ∉ l.map AnalysisItem.id) :
    updateById l id pch = l ∧ (updateById l id pch).length = l.length := by
  have he := @updateById_not_mem l id pch h
  exact ⟨he, by rw [he]⟩

/-- Witness for claim C6. -/
theorem c6_update_unknown_id_witness :
    ("no-such-id" ∉ [sampleItem, sampleItem2].map AnalysisItem.id) ∧
    updateById [sampleItem, sampleItem2] "no-such-id"
      { confidence? := some 1, status? := some .failed, result? := none } =
      [sampleItem, sampleItem2] :=
  ⟨by decide, (c6_update_unknown_id [sampleItem, sampleItem2] "no-such-id"
    { confidence? := some 1, status? := some .failed, result? := none } (by decide)).1⟩

/-! ## Claim C7 -/

/-- Claim C7: when the gateway call rejects, the record created for the
submission ends in status `failed` with its result still absent and its
confidence still the creation value `0` (the value the code uses for "no
confidence reported"; the field itself is always present in the source
record type), and the run ends in the caught-error outcome — the `catch`
block absorbs the rejection, so no exception escapes to the page. -/
theorem c7_transport_failure (p id : String) (now : Int) (msg : String)
    (hist : List AnalysisItem) (hgate : gateRejects p = false) :
    (handleAnalyze p id now (.reject msg) hist).outcome =
      .failedCaught (.transport msg) ∧
    (handleAnalyze p id now (.reject msg) hist).history.head? =
      some { id := id, problem := p, timestamp := now, confidence := 0,
             status := .failed, result := none, topic := some (extractTopic p) } ∧
    (handleAnalyze p id now (.reject msg) hist).calledGateway = true := by
  have hty : handleAnalyzeTry (.reject msg) = .error (.transport msg) := rfl
  refine ⟨?_, ?_, ?_⟩
  · unfold handleAnalyze
    rw [if_neg (by simp [hgate]), hty]
  · unfold handleAnalyze
    rw [if_neg (by simp [hgate]), hty]
    show (updateById (newAnalysisItem p id now :: hist) id _).head? = _
    unfold updateById
    rw [List.map_cons, if_pos (show (newAnalysisItem p id now).id = id from rfl)]
    rfl
  · unfold handleAnalyze
    rw [if_neg (by simp [hgate]), hty]

/-- Witness for claim C7. -/
theorem c7_transport_failure_witness :
    gateRejects "0123456789" = false ∧
    (handleAnalyze "0123456789" "7" 3 (.reject "network down") []).outcome =
      .failedCaught (.transport "network down") :=
  ⟨by decide, (c7_transport_failure "0123456789" "7" 3 "network down" [] (by decide)).1⟩

/-! ## Claim C2 -/

/-- Claim C2: when the raw gateway response is a string that is not valid
JSON after fence-stripping, the run fails with the normalized
`MalformedResponse`-style error carrying the offending (cleaned) text, the
record turns to status `failed` with no result substituted, and the error is
caught rather than escaping — the outcome is never `completed`, so no
default result is silently produced. -/
theorem c2_malformed_response (p id s : String) (now : Int) (hist : List AnalysisItem)
    (hgate : gateRejects p = false) (hbad : jsonParse (cleanResponse s) = none) :
    (handleAnalyze p id now (.ok (.str s)) hist).outcome =
      .failedCaught (.syntaxError (cleanResponse s)) ∧
    (handleAnalyze p id now (.ok (.str s)) hist).history.head? =
      some { id := id, problem := p, timestamp := now, confidence := 0,
             status := .failed, result := none, topic := some (extractTopic p) } ∧
    ∀ j, (handleAnalyze p id now (.ok (.str s)) hist).outcome ≠ .completed j := by
  have hty : handleAnalyzeTry (.ok (.str s)) = .error (.syntaxError (cleanResponse s)) := by
    show (match jsonParse (cleanResponse s) with
      | some j => Except.ok j
      | none => Except.error (JsError.syntaxError (cleanResponse s))) =
      Except.error (JsError.syntaxError (cleanResponse s))
    rw [hbad]
  refine ⟨?_, ?_, ?_⟩
  · unfold handleAnalyze
    rw [if_neg (by simp [hgate]), hty]
  · unfold handleAnalyze
    rw [if_neg (by simp [hgate]), hty]
    show (updateById (newAnalysisItem p id now :: hist) id _).head? = _
    unfold updateById
    rw [List.map_cons, if_pos (show (newAnalysisItem p id now).id = id from rfl)]
    rfl
  · intro j
    unfold handleAnalyze
    rw [if_neg (by simp [hgate]), hty]
    simp

/-- Witness for claim C2. -/
theorem c2_malformed_response_witness :
    gateRejects "0123456789" = false ∧
    jsonParse (cleanResponse "not json at all") = none ∧
    (handleAnalyze "0123456789" "9" 5 (.ok (.str "not json at all")) []).outcome =
      .failedCaught (.syntaxError (cleanResponse "not json at all")) :=
  ⟨by decide, rfl,
    (c2_malformed_response "0123456789" "9" "not json at all" 5 [] (by decide) rfl).1⟩

/-! ## Claim C8 -/

/-- Claim C8: on initialization, a missing storage slot or a stored blob
that fails to parse leaves the history state at the initial empty sequence;
the parse failure is caught inside the load effect, so startup completes
without a propagating exception. -/
theorem c8_load_resilient :
    loadHistory none = Json.arr [] ∧
    ∀ blob : String, jsonParse blob = none → loadHistory (some blob) = Json.arr [] := by
  refine ⟨rfl, fun blob h => ?_⟩
  show (match jsonParse blob with | some j => j | none => Json.arr []) = Json.arr []
  rw [h]

/-- Witness for claim C8 at a concrete malformed blob. -/
theorem c8_load_resilient_witness :
    jsonParse "\x7b" = none ∧ loadHistory (some "\x7b") = Json.arr [] :=
  ⟨rfl, c8_load_resilient.2 "\x7b" rfl⟩

/-! ## Claim C10 -/

/-- Claim C10: the save effect writes the serialized history only when the
in-memory list is nonempty; with an empty list the slot — and hence what a
later load sees — is left unchanged, so an existing persisted history is
never overwritten with an empty list. -/
theorem c10_empty_save_frame (slot : Option String) (rs : List AnalysisItem) :
    saveEffect [] slot = slot ∧
    loadHistory (saveEffect [] slot) = loadHistory slot ∧
    (rs ≠ [] → saveEffect rs slot = some (stringifyHistory rs)) := by
  refine ⟨rfl, rfl, fun h => ?_⟩
  unfold saveEffect
  rw [if_neg (by simpa using h)]

/-- Witness for claim C10. -/
theorem c10_empty_save_frame_witness :
    ([sampleItem] ≠ ([] : List AnalysisItem)) ∧
    saveEffect [sampleItem] none = some (stringifyHistory [sampleItem]) :=
  ⟨by simp, (c10_empty_save_frame none [sampleItem]).2.2 (by simp)⟩

/-! ## Claim C9 -/

/-- Claim C9 (amended): in the main flow (`handleAnalyze`) every problem
shorter than the 10-character minimum — in particular any 5-character
problem — is rejected client-side: the gateway is not called and the history
is untouched.  In the decomposed flow (`runAnalysis`, part_000:209-211) only
a problem that is blank after trimming is rejected; a non-blank 5-character
problem there does reach the gateway (see the counterexample). -/
theorem c9_short_problem_amended (p id : String) (now : Int) (gw : GatewayOutcome)
    (hist : List AnalysisItem) :
    (p.length < 10 →
      (handleAnalyze p id now gw hist).calledGateway = false ∧
      (handleAnalyze p id now gw hist).history = hist) ∧
    ((trimWs p.data).isEmpty = true → (runAnalysis p).calledGateway = false) := by
  constructor
  · intro hlen
    have hgate : gateRejects p = true := by
      unfold gateRejects
      by_cases h1 : (trimWs p.data).isEmpty
      · rw [if_pos h1]
      · rw [if_neg h1, if_pos hlen]
    unfold handleAnalyze
    rw [if_pos (by simp [hgate])]
    exact ⟨rfl, rfl⟩
  · intro hblank
    unfold runAnalysis
    rw [if_pos hblank]

/-- Witness for the amended claim C9. -/
theorem c9_short_problem_witness :
    ("12345" : String).length < 10 ∧
    (handleAnalyze "12345" "1" 0 (.reject "e") [sampleItem]).calledGateway = false ∧
    (handleAnalyze "12345" "1" 0 (.reject "e") [sampleItem]).history = [sampleItem] ∧
    (trimWs "  ".data).isEmpty = true ∧
    (runAnalysis "  ").calledGateway = false :=
  ⟨by decide,
    ((c9_short_problem_amended "12345" "1" 0 (.reject "e") [sampleItem]).1 (by decide)).1,
    ((c9_short_problem_amended "12345" "1" 0 (.reject "e") [sampleItem]).1 (by decide)).2,
    by decide,
    (c9_short_problem_amended "  " "1" 0 (.reject "e") [sampleItem]).2 (by decide)⟩

/-- Claim C9 counterexample: `"abcde"` is a 5-character problem, yet the
decomposed flow's gate passes it and the gateway calls are made, refuting
the claim that every 5-character submission is rejected before any gateway
call. -/
theorem c9_counterexample :
    ("abcde" : String).length = 5 ∧ (runAnalysis "abcde").calledGateway = true := by
  exact ⟨rfl, rfl⟩

/-! ## Claim C4 -/

/-- Claim C4: one `handleAnalyze` run preserves the record-status invariant
(`completed` only with a present, successfully parsed result; `failed` with
no result), and — when the submission passes the gate — the record it
creates in the transient `in_progress` state is resolved by that same run:
every record in the resulting history carrying the new id has status
`completed` or `failed`.  The freshness hypothesis reflects the generated
`Date.now()` id not colliding with an existing record. -/
theorem c4_status_invariant (p id : String) (now : Int) (gw : GatewayOutcome)
    (hist : List AnalysisItem) (hinv : ∀ it ∈ hist, statusInv it)
    (hfresh : id ∉ hist.map AnalysisItem.id) :
    (∀ it ∈ (handleAnalyze p id now gw hist).history, statusInv it) ∧
    (gateRejects p = false →
      ∀ it ∈ (handleAnalyze p id now gw hist).history, it.id = id →
        it.status = .completed ∨ it.status = .failed) := by
  by_cases hgate : gateRejects p = true
  · have hh : (handleAnalyze p id now gw hist).history = hist := by
      unfold handleAnalyze
      rw [if_pos (by simp [hgate])]
    exact ⟨by rw [hh]; exact hinv, fun hg => absurd hgate (by simp [hg])⟩
  · have hgate' : gateRejects p = false := by simpa using hgate
    cases hca : handleAnalyzeTry gw with
    | ok parsed =>
      have hh := @handleAnalyze_ok_history p id now gw hist parsed hgate' hfresh hca
      rw [hh]
      constructor
      · intro it hit
        rcases List.mem_cons.mp hit with rfl | hmem
        · exact ⟨fun _ => rfl, fun hc => by simp at hc⟩
        · exact hinv it hmem
      · intro _ it hit hid
        rcases List.mem_cons.mp hit with rfl | hmem
        · left; rfl
        · exact absurd (hid ▸ List.mem_map_of_mem AnalysisItem.id hmem) hfresh
    | error e =>
      have hh := @handleAnalyze_err_history p id now gw hist e hgate' hfresh hca
      rw [hh]
      constructor
      · intro it hit
        rcases List.mem_cons.mp hit with rfl | hmem
        · exact ⟨fun hc => by simp at hc, fun _ => rfl⟩
        · exact hinv it hmem
      · intro _ it hit hid
        rcases List.mem_cons.mp hit with rfl | hmem
        · right; rfl
        · exact absurd (hid ▸ List.mem_map_of_mem AnalysisItem.id hmem) hfresh

/-- Witness for claim C4. -/
theorem c4_status_invariant_witness :
    (∀ it ∈ [sampleItem], statusInv it) ∧
    ("77" ∉ [sampleItem].map AnalysisItem.id) ∧
    (∀ it ∈ (handleAnalyze "0123456789" "77" 1 (.reject "x") [sampleItem]).history,
      statusInv it) := by
  refine ⟨?_, by decide, ?_⟩
  · intro it hit
    rcases List.mem_cons.mp hit with rfl | hmem
    · exact ⟨fun _ => rfl, fun hc => by simp [sampleItem] at hc⟩
    · exact absurd hmem (by simp)
  · refine (c4_status_invariant "0123456789" "77" 1 (.reject "x") [sampleItem] ?_ (by decide)).1
    intro it hit
    rcases List.mem_cons.mp hit with rfl | hmem
    · exact ⟨fun _ => rfl, fun hc => by simp [sampleItem] at hc⟩
    · exact absurd hmem (by simp)

/-! ## Lemmas: digits and escapes -/

/-- Decoding a rendered decimal digit. -/
theorem digitChar_toNat_sub {d : Nat} (h : d < 10) : (Nat.digitChar d).toNat - 48 = d := by
  interval_cases d <;> decide

/-- Rendered decimal digits satisfy the digit test. -/
theorem isDigitC_digitChar {d : Nat} (h : d < 10) : isDigitC (Nat.digitChar d) = true := by
  interval_cases d <;> decide

/-- A nonzero digit renders to a character other than `'0'`. -/
theorem digitChar_ne_zero_char {d : Nat} (h : d < 10) (h0 : d ≠ 0) :
    Nat.digitChar d ≠ '0' := by
  interval_cases d
  · exact absurd rfl h0
  all_goals decide

/-- Decoding a rendered hexadecimal digit. -/
theorem hexVal_digitChar {m : Nat} (h : m < 16) : hexVal (Nat.digitChar m) = m := by
  interval_cases m <;> decide

/-- Rendered hexadecimal digits satisfy the hex-digit test. -/
theorem isHexC_digitChar {m : Nat} (h : m < 16) : isHexC (Nat.digitChar m) = true := by
  interval_cases m <;> decide

/-- A digit character is distinct from a character outside the digit code
range. -/
theorem digit_ne {c : Char} (h1 : 48 ≤ c.toNat) (h2 : c.toNat ≤ 57) (d : Char)
    (hd : d.toNat < 48 ∨ 57 < d.toNat) : c ≠ d := by
  intro heq
  subst heq
  rcases hd with h | h <;> omega

/-- A digit character is routed to the number branch of the parser: it is
none of the structural characters and not whitespace. -/
theorem digit_route {c : Char} (h : isDigitC c = true) :
    c ≠ 'n' ∧ c ≠ 't' ∧ c ≠ 'f' ∧ c ≠ '"' ∧ c ≠ '[' ∧ c ≠ '\x7b' ∧ c ≠ '-' ∧
    isWsChar c = false ∧ c ≠ ']' ∧ c ≠ '\x7d' ∧ c ≠ ',' := by
  simp only [isDigitC, Bool.and_eq_true, decide_eq_true_eq] at h
  obtain ⟨h1, h2⟩ := h
  refine ⟨digit_ne h1 h2 'n' (by decide), digit_ne h1 h2 't' (by decide),
    digit_ne h1 h2 'f' (by decide), digit_ne h1 h2 '"' (by decide),
    digit_ne h1 h2 '[' (by decide), digit_ne h1 h2 '\x7b' (by decide),
    digit_ne h1 h2 '-' (by decide), ?_, digit_ne h1 h2 ']' (by decide),
    digit_ne h1 h2 '\x7d' (by decide), digit_ne h1 h2 ',' (by decide)⟩
  simp only [isWsChar, Bool.or_eq_false_iff, decide_eq_false_iff_not]
  exact ⟨⟨⟨digit_ne h1 h2 ' ' (by decide), digit_ne h1 h2 '\t' (by decide)⟩,
    digit_ne h1 h2 '\n' (by decide)⟩, digit_ne h1 h2 '\r' (by decide)⟩

/-- The printer's escaping and the parser's unescaping are inverse: reading
an escaped string body gives back the original characters and the input
following the closing quote. -/
theorem parseStrChars_escape : ∀ (l rest : List Char),
    parseStrChars (escapeStr l ++ '"' :: rest) = some (l, rest) := by
  intro l
  induction l with
  | nil => intro rest; simp [escapeStr, parseStrChars]
  | cons c cs ih =>
    intro rest
    show parseStrChars ((escapeChar c ++ escapeStr cs) ++ '"' :: rest) = _
    rw [List.append_assoc]
    by_cases h1 : c = '"'
    · subst h1; simp [escapeChar, parseStrChars, ih]
    · by_cases h2 : c = '\\'
      · subst h2; simp [escapeChar, parseStrChars, ih]
      · by_cases h3 : c = '\x08'
        · subst h3; simp [escapeChar, parseStrChars, ih]
        · by_cases h4 : c = '\x0c'
          · subst h4; simp [escapeChar, parseStrChars, ih]
          · by_cases h5 : c = '\n'
            · subst h5; simp [escapeChar, parseStrChars, ih]
            · by_cases h6 : c = '\r'
              · subst h6; simp [escapeChar, parseStrChars, ih]
              · by_cases h7 : c = '\t'
                · subst h7; simp [escapeChar, parseStrChars, ih]
                · by_cases h8 : c.toNat < 32
                  · have hd1 : c.toNat / 16 < 16 := by omega
                    have hd2 : c.toNat % 16 < 16 := by omega
                    have hval : 4096 * hexVal '0' + 256 * hexVal '0' +
                        16 * hexVal (Nat.digitChar (c.toNat / 16)) +
                        hexVal (Nat.digitChar (c.toNat % 16)) = c.toNat := by
                      rw [hexVal_digitChar hd1, hexVal_digitChar hd2,
                        show hexVal '0' = 0 from rfl]
                      omega
                    simp [escapeChar, h1, h2, h3, h4, h5, h6, h7, h8, parseStrChars,
                      isHexC_digitChar hd1, isHexC_digitChar hd2, hval,
                      (by decide : isHexC '0' = true), Char.ofNat_toNat, ih]
                  · simp [escapeChar, h1, h2, h3, h4, h5, h6, h7, h8, parseStrChars, ih]

/-! ## Lemmas: decimal rendering round trip -/

/-- Folding the parser's digit accumulator over rendered digits recovers the
positional value. -/
theorem foldl_digitChars (L : List Nat) (a : Nat) (h : ∀ d ∈ L, d < 10) :
    List.foldl (fun acc c => 10 * acc + (c.toNat - 48)) a ((L.map Nat.digitChar).reverse) =
      a * 10 ^ L.length + Nat.ofDigits 10 L := by
  induction L generalizing a with
  | nil => simp
  | cons d L' ih =>
    have hd : d < 10 := h d (by simp)
    have hL' : ∀ x ∈ L', x < 10 := fun x hx => h x (by simp [hx])
    simp only [List.map_cons, List.reverse_cons]
    rw [List.foldl_append, ih a hL']
    simp only [List.foldl_cons, List.foldl_nil, digitChar_toNat_sub hd,
      Nat.ofDigits_cons, List.length_cons, Nat.pow_succ]
    ring

/-- Reading back a rendered natural number. -/
theorem natOfChars_natChars (n : Nat) : natOfChars (natChars n) = n := by
  by_cases h : n = 0
  · subst h; decide
  · unfold natChars natOfChars
    rw [if_neg h]
    have hlt : ∀ d ∈ Nat.digits 10 n, d < 10 := fun d hd =>
      Nat.digits_lt_base (by norm_num) hd
    have hfold := foldl_digitChars (Nat.digits 10 n) 0 hlt
    simpa [Nat.ofDigits_digits] using hfold

/-- Every character of a rendered natural number is a digit. -/
theorem natChars_all_digit (n : Nat) : ∀ c ∈ natChars n, isDigitC c = true := by
  intro c hc
  unfold natChars at hc
  by_cases h : n = 0
  · rw [if_pos h] at hc
    simp only [List.mem_singleton] at hc
    subst hc
    decide
  · rw [if_neg h, List.mem_reverse] at hc
    rcases List.mem_map.mp hc with ⟨d, hd, rfl⟩
    exact isDigitC_digitChar (Nat.digits_lt_base (by norm_num) hd)

/-- A rendered natural number starts with a digit, and with a nonzero digit
when the number is nonzero (no leading zeros). -/
theorem natChars_cons (n : Nat) :
    ∃ c t, natChars n = c :: t ∧ isDigitC c = true ∧ (n ≠ 0 → c ≠ '0') := by
  by_cases h : n = 0
  · exact ⟨'0', [], by simp [natChars, h], by decide, fun hn => absurd h hn⟩
  · rcases List.eq_nil_or_concat (Nat.digits 10 n) with hnil | ⟨L, d, hEq⟩
    · exact absurd hnil (Nat.digits_ne_nil_iff_ne_zero.mpr h)
    · have hd10 : d < 10 := by
        apply Nat.digits_lt_base (by norm_num)
        rw [hEq]
        simp [List.concat_eq_append]
      have hdz : d ≠ 0 := by
        intro hd0
        apply Nat.getLast_digit_ne_zero 10 h
        have h2 : (Nat.digits 10 n).getLast? = some d := by
          rw [hEq, List.concat_eq_append]
          exact List.getLast?_concat _
        rw [List.getLast?_eq_getLast _ (Nat.digits_ne_nil_iff_ne_zero.mpr h)] at h2
        rw [Option.some.inj h2]
        exact hd0
      refine ⟨Nat.digitChar d, (L.map Nat.digitChar).reverse, ?_, isDigitC_digitChar hd10,
        fun _ => digitChar_ne_zero_char hd10 hdz⟩
      unfold natChars
      rw [if_neg h, hEq]
      simp [List.map_append, List.reverse_append]

/-- A rendered natural number ends with a digit. -/
theorem natChars_concat (m : Nat) :
    ∃ A d, natChars m = A ++ [d] ∧ isDigitC d = true := by
  by_cases h : m = 0
  · exact ⟨[], '0', by simp [natChars, h], by decide⟩
  · cases hdig : Nat.digits 10 m with
    | nil => exact absurd hdig (Nat.digits_ne_nil_iff_ne_zero.mpr h)
    | cons d0 ds =>
      have hd10 : d0 < 10 := Nat.digits_lt_base (by norm_num) (hdig ▸ List.mem_cons_self d0 ds)
      refine ⟨(ds.map Nat.digitChar).reverse, Nat.digitChar d0, ?_, isDigitC_digitChar hd10⟩
      unfold natChars
      rw [if_neg h, hdig]
      simp [List.reverse_cons]

/-! ## Lemmas: takeWhile on rendered numbers -/

/-- `takeWhile` passes over an all-true left part. -/
theorem takeWhile_append_all {p : Char → Bool} {A : List Char} (B : List Char)
    (hA : ∀ c ∈ A, p c = true) :
    List.takeWhile p (A ++ B) = A ++ List.takeWhile p B := by
  induction A with
  | nil => simp
  | cons c as ih =>
    have hc := hA c (by simp)
    simp [List.takeWhile_cons, hc, ih (fun x hx => hA x (by simp [hx]))]

/-- `takeWhile isDigitC` stops immediately at a non-digit head. -/
theorem takeWhile_digit_nil {B : List Char} (h : isDigitC (B.headD 'x') = false) :
    List.takeWhile isDigitC B = [] := by
  cases B with
  | nil => rfl
  | cons b bs =>
    simp only [List.headD_cons] at h
    simp [List.takeWhile_cons, h]

/-- Reading back a rendered unsigned integer with a non-digit continuation. -/
theorem parseNatPart_natChars (n : Nat) {rest : List Char}
    (hrest : isDigitC (rest.headD 'x') = false) :
    parseNatPart (natChars n ++ rest) = some (n, rest) := by
  have htw : List.takeWhile isDigitC (natChars n ++ rest) = natChars n := by
    rw [takeWhile_append_all rest (natChars_all_digit n), takeWhile_digit_nil hrest,
      List.append_nil]
  obtain ⟨c, t, hct, hcd, hc0⟩ := natChars_cons n
  have hval := natOfChars_natChars n
  have hdrop : (natChars n ++ rest).drop (natChars n).length = rest := List.drop_left _ _
  have hlz : ¬(2 ≤ (natChars n).length ∧ (natChars n).headD 'x' = '0') := by
    by_cases hn : n = 0
    · subst hn
      intro hcond
      simp [natChars] at hcond
    · rw [hct]
      simp only [List.headD_cons]
      intro hcond
      exact hc0 hn hcond.2
  unfold parseNatPart
  simp only [htw, hdrop, hval]
  rw [if_neg (by rw [hct]; simp), if_neg (by simpa using hlz)]

/-- Reading back a rendered integer with a non-digit continuation. -/
theorem parseNum_intChars (n : Int) {rest : List Char}
    (hrest : isDigitC (rest.headD 'x') = false) :
    parseNum (intChars n ++ rest) = some (Json.num n, rest) := by
  by_cases h : n < 0
  · have habs : -(n.natAbs : Int) = n := by omega
    unfold intChars
    rw [if_pos h]
    unfold parseNum
    simp only [List.cons_append, List.headD_cons, List.tail_cons]
    rw [if_pos trivial, parseNatPart_natChars n.natAbs hrest]
    simp only [Option.map_some']
    rw [habs]
  · have habs : (n.natAbs : Int) = n := by omega
    obtain ⟨c, t, hct, hcd, _⟩ := natChars_cons n.natAbs
    have hni : c ≠ '-' := (digit_route hcd).2.2.2.2.2.2.1
    unfold intChars
    rw [if_neg h]
    unfold parseNum
    rw [hct, List.cons_append]
    simp only [List.headD_cons]
    rw [if_neg hni, ← List.cons_append, ← hct, parseNatPart_natChars n.natAbs hrest]
    simp only [Option.map_some']
    rw [habs]

/-! ## Lemmas: shapes of rendered values -/

/-- A rendered nonempty element list starts with its first element. -/
theorem renderItems_eq_append (x : Json) (xs : List Json) :
    ∃ T, renderItems x xs = render x ++ T := by
  cases xs with
  | nil => exact ⟨[], by simp [renderItems]⟩
  | cons y ys => exact ⟨',' :: renderItems y ys, by simp [renderItems]⟩

/-- A rendered nonempty member list starts with a quote. -/
theorem renderMembers_head (kv : String × Json) (kvs : List (String × Json)) :
    ∃ t, renderMembers kv kvs = '"' :: t := by
  obtain ⟨k, v⟩ := kv
  cases kvs with
  | nil =>
    exact ⟨escapeStr k.data ++ '"' :: ':' :: render v, by simp [renderMembers]⟩
  | cons kv2 kvs' =>
    exact ⟨(escapeStr k.data ++ '"' :: ':' :: render v) ++ ',' :: renderMembers kv2 kvs',
      by simp [renderMembers]⟩

/-- Every rendered value starts with a non-whitespace character that is not
a closing bracket. -/
theorem render_head_spec (j : Json) :
    ∃ c t, render j = c :: t ∧ isWsChar c = false ∧ c ≠ ']' ∧ c ≠ '\x7d' := by
  cases j with
  | null =>
    exact ⟨'n', ['u', 'l', 'l'], by simp [render], by decide, by decide, by decide⟩
  | bool b =>
    cases b with
    | true => exact ⟨'t', ['r', 'u', 'e'], by simp [render], by decide, by decide, by decide⟩
    | false =>
      exact ⟨'f', ['a', 'l', 's', 'e'], by simp [render], by decide, by decide, by decide⟩
  | num n =>
    have hrn : render (Json.num n) = intChars n := by simp [render]
    rw [hrn]
    unfold intChars
    by_cases h : n < 0
    · rw [if_pos h]
      exact ⟨'-', natChars n.natAbs, rfl, by decide, by decide, by decide⟩
    · rw [if_neg h]
      obtain ⟨c, t, hct, hcd, _⟩ := natChars_cons n.natAbs
      have hr := digit_route hcd
      exact ⟨c, t, hct, hr.2.2.2.2.2.2.2.1, hr.2.2.2.2.2.2.2.2.1, hr.2.2.2.2.2.2.2.2.2.1⟩
  | str s =>
    exact ⟨'"', escapeStr s.data ++ ['"'], by simp [render], by decide, by decide, by decide⟩
  | arr xs =>
    cases xs with
    | nil => exact ⟨'[', [']'], by simp [render], by decide, by decide, by decide⟩
    | cons x xs' =>
      exact ⟨'[', renderItems x xs' ++ [']'], by simp [render], by decide, by decide,
        by decide⟩
  | obj kvs =>
    cases kvs with
    | nil => exact ⟨'\x7b', ['\x7d'], by simp [render], by decide, by decide, by decide⟩
    | cons kv kvs' =>
      exact ⟨'\x7b', renderMembers kv kvs' ++ ['\x7d'], by simp [render], by decide,
        by decide, by decide⟩

/-- Every rendered value ends with a non-whitespace character. -/
theorem render_concat (j : Json) :
    ∃ A c, render j = A ++ [c] ∧ isWsChar c = false := by
  cases j with
  | null => exact ⟨['n', 'u', 'l'], 'l', by simp [render], by decide⟩
  | bool b =>
    cases b with
    | true => exact ⟨['t', 'r', 'u'], 'e', by simp [render], by decide⟩
    | false => exact ⟨['f', 'a', 'l', 's'], 'e', by simp [render], by decide⟩
  | num n =>
    have hrn : render (Json.num n) = intChars n := by simp [render]
    rw [hrn]
    unfold intChars
    obtain ⟨A, d, hAd, hd⟩ := natChars_concat n.natAbs
    have hws := (digit_route hd).2.2.2.2.2.2.2.1
    by_cases h : n < 0
    · rw [if_pos h, hAd]
      exact ⟨'-' :: A, d, rfl, hws⟩
    · rw [if_neg h, hAd]
      exact ⟨A, d, rfl, hws⟩
  | str s =>
    exact ⟨'"' :: escapeStr s.data, '"', by simp [render], by decide⟩
  | arr xs =>
    cases xs with
    | nil => exact ⟨['['], ']', by simp [render], by decide⟩
    | cons x xs' =>
      exact ⟨'[' :: renderItems x xs', ']', by simp [render], by decide⟩
  | obj kvs =>
    cases kvs with
    | nil => exact ⟨['\x7b'], '\x7d', by simp [render], by decide⟩
    | cons kv kvs' =>
      exact ⟨'\x7b' :: renderMembers kv kvs', '\x7d', by simp [render], by decide⟩

/-- Rendered values carry no surrounding whitespace, so trimming is the
identity on them. -/
theorem trimWs_render (j : Json) : trimWs (render j) = render j := by
  obtain ⟨c, t, hct, hws, _, _⟩ := render_head_spec j
  obtain ⟨A, d, hAd, hwd⟩ := render_concat j
  have h1 : trimRightWs (render j) = render j := by
    rw [hAd]
    unfold trimRightWs
    rw [List.reverse_append]
    simp [List.dropWhile_cons, hwd]
  rw [trimWs, h1, skipWs, hct, List.dropWhile_cons, if_neg (by simp [hws])]

/-! ## Lemmas: parser branch routing -/

/-- A head character that is none of the structural openers routes the
parser to the number branch. -/
theorem parseVal_number_branch (f : Nat) {l : List Char} (c : Char) (Y : List Char)
    (hl : l = c :: Y) (hws : isWsChar c = false) (hn : c ≠ 'n') (ht : c ≠ 't')
    (hf : c ≠ 'f') (hq : c ≠ '"') (hb : c ≠ '[') (ho : c ≠ '\x7b') :
    parseVal (f + 1) l = parseNum l := by
  subst hl
  simp [parseVal, skipWs, List.dropWhile_cons, hws, hn, ht, hf, hq, hb, ho]

/-- The array branch of the parser, for a nonempty body. -/
theorem parseVal_arr_branch (f : Nat) {l : List Char} (inner : List Char)
    (hl : l = '[' :: inner) (hskip : skipWs inner = inner)
    (hne : inner.headD 'x' ≠ ']') :
    parseVal (f + 1) l = (parseItems f inner).map fun p => (Json.arr p.1, p.2) := by
  subst hl
  have hb : inner.headD 'x' = inner.head?.getD 'x' := by cases inner <;> rfl
  rw [hb] at hne
  simp [parseVal, skipWs, isWsChar, List.dropWhile_cons,
    (show List.dropWhile isWsChar inner = inner from hskip), hne]

/-- The object branch of the parser, for a nonempty body. -/
theorem parseVal_obj_branch (f : Nat) {l : List Char} (inner : List Char)
    (hl : l = '\x7b' :: inner) (hskip : skipWs inner = inner)
    (hne : inner.headD 'x' ≠ '\x7d') :
    parseVal (f + 1) l = (parseMembers f inner).map fun p => (Json.obj p.1, p.2) := by
  subst hl
  have hb : inner.headD 'x' = inner.head?.getD 'x' := by cases inner <;> rfl
  rw [hb] at hne
  simp [parseVal, skipWs, isWsChar, List.dropWhile_cons,
    (show List.dropWhile isWsChar inner = inner from hskip), hne]

/-- Print–parse round trip, proved for every sufficient recursion budget:
a rendered value followed by any non-digit-headed continuation parses back
to exactly that value with the continuation untouched; rendered nonempty
element and member lists parse back through the list loops likewise. -/
theorem parse_render_master : ∀ f : Nat,
    (∀ (j : Json) (rest : List Char), (render j).length < f →
      isDigitC (rest.headD 'x') = false →
      parseVal f (render j ++ rest) = some (j, rest)) ∧
    (∀ (x : Json) (xs : List Json) (rest : List Char),
      (renderItems x xs).length + 1 < f →
      parseItems f (renderItems x xs ++ ']' :: rest) = some (x :: xs, rest)) ∧
    (∀ (kv : String × Json) (kvs : List (String × Json)) (rest : List Char),
      (renderMembers kv kvs).length + 1 < f →
      parseMembers f (renderMembers kv kvs ++ '\x7d' :: rest) = some (kv :: kvs, rest)) := by
  intro f
  induction f with
  | zero =>
    exact ⟨fun _ _ h _ => absurd h (by omega), fun _ _ _ h => absurd h (by omega),
      fun _ _ _ h => absurd h (by omega)⟩
  | succ f ih =>
    obtain ⟨ihP, ihQ, ihR⟩ := ih
    refine ⟨?_, ?_, ?_⟩
    · intro j rest hlen hrest
      cases j with
      | null =>
        have hr : render Json.null = ['n', 'u', 'l', 'l'] := by simp [render]
        rw [hr]
        simp [parseVal, skipWs, startsWithL, isWsChar, List.dropWhile_cons]
      | bool b =>
        cases b with
        | true =>
          have hr : render (Json.bool true) = ['t', 'r', 'u', 'e'] := by simp [render]
          rw [hr]
          simp [parseVal, skipWs, startsWithL, isWsChar, List.dropWhile_cons]
        | false =>
          have hr : render (Json.bool false) = ['f', 'a', 'l', 's', 'e'] := by simp [render]
          rw [hr]
          simp [parseVal, skipWs, startsWithL, isWsChar, List.dropWhile_cons]
      | num n =>
        have hr : render (Json.num n) = intChars n := by simp [render]
        rw [hr]
        by_cases h : n < 0
        · have hic : intChars n = '-' :: natChars n.natAbs := by
            unfold intChars
            rw [if_pos h]
          rw [parseVal_number_branch f '-' (natChars n.natAbs ++ rest)
            (by rw [hic]; simp) (by decide) (by decide) (by decide) (by decide)
            (by decide) (by decide) (by decide)]
          rw [hic, List.cons_append]
          show parseNum (('-' :: natChars n.natAbs) ++ rest) = _
          rw [← hic]
          exact parseNum_intChars n hrest
        · have hic : intChars n = natChars n.natAbs := by
            unfold intChars
            rw [if_neg h]
          obtain ⟨c, t, hct, hcd, _⟩ := natChars_cons n.natAbs
          have hr2 := digit_route hcd
          rw [parseVal_number_branch f c (t ++ rest) (by rw [hic, hct]; simp)
            hr2.2.2.2.2.2.2.2.1 hr2.1 hr2.2.1 hr2.2.2.1 hr2.2.2.2.1 hr2.2.2.2.2.1
            hr2.2.2.2.2.2.1]
          exact parseNum_intChars n hrest
      | str s =>
        have hms : String.mk s.data = s := rfl
        have hr : (render (Json.str s)) ++ rest =
            '"' :: (escapeStr s.data ++ '"' :: rest) := by simp [render]
        rw [hr]
        simp [parseVal, skipWs, isWsChar, List.dropWhile_cons, parseStrChars_escape, hms]
      | arr xs =>
        cases xs with
        | nil =>
          have hr : render (Json.arr []) = ['[', ']'] := by simp [render]
          rw [hr]
          simp [parseVal, skipWs, isWsChar, List.dropWhile_cons]
        | cons x xs' =>
          have hr : (render (Json.arr (x :: xs'))) ++ rest =
              '[' :: (renderItems x xs' ++ ']' :: rest) := by simp [render]
          rw [hr]
          obtain ⟨T, hT⟩ := renderItems_eq_append x xs'
          obtain ⟨c, t, hct, hws, hnb, _⟩ := render_head_spec x
          have hskip : skipWs (renderItems x xs' ++ ']' :: rest) =
              renderItems x xs' ++ ']' :: rest := by
            rw [hT, hct]
            simp [skipWs, List.dropWhile_cons, hws]
          have hhd : (renderItems x xs' ++ ']' :: rest).headD 'x' ≠ ']' := by
            rw [hT, hct]
            simpa using hnb
          rw [parseVal_arr_branch f _ rfl hskip hhd]
          have hQ : parseItems f (renderItems x xs' ++ ']' :: rest) =
              some (x :: xs', rest) := by
            apply ihQ
            have hl2 : (render (Json.arr (x :: xs'))).length =
                (renderItems x xs').length + 2 := by simp [render]
            omega
          rw [hQ]
          rfl
      | obj kvs =>
        cases kvs with
        | nil =>
          have hr : render (Json.obj []) = ['\x7b', '\x7d'] := by simp [render]
          rw [hr]
          simp [parseVal, skipWs, isWsChar, List.dropWhile_cons]
        | cons kv kvs' =>
          have hr : (render (Json.obj (kv :: kvs'))) ++ rest =
              '\x7b' :: (renderMembers kv kvs' ++ '\x7d' :: rest) := by simp [render]
          rw [hr]
          obtain ⟨t2, ht2⟩ := renderMembers_head kv kvs'
          have hskip : skipWs (renderMembers kv kvs' ++ '\x7d' :: rest) =
              renderMembers kv kvs' ++ '\x7d' :: rest := by
            rw [ht2]
            simp [skipWs, isWsChar, List.dropWhile_cons]
          have hhd : (renderMembers kv kvs' ++ '\x7d' :: rest).headD 'x' ≠ '\x7d' := by
            rw [ht2]
            simp
          rw [parseVal_obj_branch f _ rfl hskip hhd]
          have hR : parseMembers f (renderMembers kv kvs' ++ '\x7d' :: rest) =
              some (kv :: kvs', rest) := by
            apply ihR
            have hl2 : (render (Json.obj (kv :: kvs'))).length =
                (renderMembers kv kvs').length + 2 := by simp [render]
            omega
          rw [hR]
          rfl
    · intro x xs rest hlen
      cases xs with
      | nil =>
        have hri : renderItems x [] = render x := by simp [renderItems]
        rw [hri] at hlen ⊢
        have hP : parseVal f (render x ++ ']' :: rest) = some (x, ']' :: rest) :=
          ihP x (']' :: rest) (by omega) (by rw [List.headD_cons]; decide)
        simp only [parseItems]
        rw [hP]
        simp [skipWs, isWsChar, List.dropWhile_cons]
      | cons y ys =>
        have hri : renderItems x (y :: ys) = render x ++ ',' :: renderItems y ys := by
          simp [renderItems]
        rw [hri] at hlen ⊢
        have hsh : (render x ++ ',' :: renderItems y ys) ++ ']' :: rest =
            render x ++ ',' :: (renderItems y ys ++ ']' :: rest) := by simp
        rw [hsh]
        have hx : (render x).length < f := by
          simp [List.length_append] at hlen
          omega
        have hP := ihP x (',' :: (renderItems y ys ++ ']' :: rest)) hx
          (by rw [List.headD_cons]; decide)
        have hQ := ihQ y ys rest (by simp [List.length_append] at hlen; omega)
        simp only [parseItems]
        rw [hP]
        simp [skipWs, isWsChar, List.dropWhile_cons, hQ]
    · intro kv kvs rest hlen
      obtain ⟨k, v⟩ := kv
      cases kvs with
      | nil =>
        have hrm : renderMembers (k, v) [] =
            '"' :: (escapeStr k.data ++ '"' :: ':' :: render v) := by simp [renderMembers]
        rw [hrm] at hlen ⊢
        have hsh : ('"' :: (escapeStr k.data ++ '"' :: ':' :: render v)) ++ '\x7d' :: rest =
            '"' :: (escapeStr k.data ++ '"' :: (':' :: (render v ++ '\x7d' :: rest))) := by
          simp
        rw [hsh]
        have hx : (render v).length < f := by
          simp [List.length_append] at hlen
          omega
        have hP := ihP v ('\x7d' :: rest) hx (by rw [List.headD_cons]; decide)
        simp only [parseMembers]
        simp [parseStrChars_escape, skipWs, isWsChar, List.dropWhile_cons, hP,
          (show String.mk k.data = k from rfl)]
      | cons kv2 kvs' =>
        have hrm : renderMembers (k, v) (kv2 :: kvs') =
            ('"' :: (escapeStr k.data ++ '"' :: ':' :: render v)) ++
              ',' :: renderMembers kv2 kvs' := by simp [renderMembers]
        rw [hrm] at hlen ⊢
        have hsh : (('"' :: (escapeStr k.data ++ '"' :: ':' :: render v)) ++
              ',' :: renderMembers kv2 kvs') ++ '\x7d' :: rest =
            '"' :: (escapeStr k.data ++ '"' ::
              (':' :: (render v ++ ',' :: (renderMembers kv2 kvs' ++ '\x7d' :: rest)))) := by
          simp
        rw [hsh]
        have hx : (render v).length < f := by
          simp [List.length_append] at hlen
          omega
        have hP := ihP v (',' :: (renderMembers kv2 kvs' ++ '\x7d' :: rest)) hx
          (by rw [List.headD_cons]; decide)
        obtain ⟨t2, ht2⟩ := renderMembers_head kv2 kvs'
        have hskip2 : List.dropWhile isWsChar (renderMembers kv2 kvs' ++ '\x7d' :: rest) =
            renderMembers kv2 kvs' ++ '\x7d' :: rest := by
          rw [ht2]
          simp [isWsChar, List.dropWhile_cons]
        have hR := ihR kv2 kvs' rest (by simp [List.length_append] at hlen; omega)
        simp only [parseMembers]
        simp [parseStrChars_escape, skipWs, isWsChar, List.dropWhile_cons, hP, hskip2, hR,
          (show String.mk k.data = k from rfl)]

/-- `JSON.parse` inverts `JSON.stringify` on every value in the model. -/
theorem jsonParse_render (j : Json) : jsonParse (String.mk (render j)) = some j := by
  show parseTop (trimWs (render j)) = some j
  rw [trimWs_render]
  unfold parseTop
  have hP := (parse_render_master ((render j).length + 1)).1 j [] (by omega) (by decide)
  rw [List.append_nil] at hP
  rw [hP]
  rfl

/-! ## Lemmas: record encode and decode -/

/-- The status string round trip. -/
theorem decodeStatus_statusStr (st : AnalysisStatus) : decodeStatus (statusStr st) = some st := by
  cases st <;> rfl

/-- Decoding inverts encoding for one record. -/
theorem decodeItem_encodeItem (r : AnalysisItem) : decodeItem (encodeItem r) = some r := by
  obtain ⟨i, p, ts, cf, st, res, top⟩ := r
  cases res <;> cases top <;>
    simp [encodeItem, decodeItem, decodeStatus_statusStr]

/-- Decoding inverts encoding for a record list. -/
theorem decodeItems_map (rs : List AnalysisItem) :
    decodeItems (rs.map encodeItem) = some rs := by
  induction rs with
  | nil => rfl
  | cons r rs' ih => simp [decodeItems, decodeItem_encodeItem, ih]

/-- A slot whose blob parses loads as the parsed value. -/
theorem loadHistory_parsed {blob : String} {j : Json} (h : jsonParse blob = some j) :
    loadHistory (some blob) = j := by
  show (match jsonParse blob with | some j' => j' | none => Json.arr []) = j
  rw [h]

/-- Decoding inverts encoding for a whole history value. -/
theorem decodeHistory_encodeHistory (rs : List AnalysisItem) :
    decodeHistory (encodeHistory rs) = some rs := by
  show decodeItems (rs.map encodeItem) = some rs
  exact decodeItems_map rs

/-- A nonempty history is written to the slot by the save effect. -/
theorem saveEffect_ne_nil {rs : List AnalysisItem} (slot : Option String) (h : rs ≠ []) :
    saveEffect rs slot = some (stringifyHistory rs) := by
  unfold saveEffect
  rw [if_neg (by simpa using h)]

/-- The persisted blob parses back to the serialized history value. -/
theorem jsonParse_stringifyHistory (rs : List AnalysisItem) :
    jsonParse (stringifyHistory rs) = some (encodeHistory rs) :=
  jsonParse_render (encodeHistory rs)

/-! ## Claim C3 -/

/-- Claim C3 (amended): for every sequence of one or more well-formed
records, persisting to the device-local slot and reloading through the
load-on-init path yields a sequence deeply equal to the pre-persistence
sequence: the reloaded JSON value is exactly the serialization of the
original records, and decoding it gives back the original sequence.  (The
restriction to nonempty sequences is forced by the counterexample below:
the save effect skips the write when the in-memory list is empty, so an
empty sequence does not round-trip over a previously populated slot.) -/
theorem c3_persist_roundtrip (rs : List AnalysisItem) (slot : Option String)
    (h : rs ≠ []) :
    loadHistory (saveEffect rs slot) = encodeHistory rs ∧
    decodeHistory (loadHistory (saveEffect rs slot)) = some rs := by
  rw [saveEffect_ne_nil slot h, loadHistory_parsed (jsonParse_stringifyHistory rs)]
  exact ⟨rfl, decodeHistory_encodeHistory rs⟩

/-- Witness for the amended claim C3. -/
theorem c3_persist_roundtrip_witness :
    ([sampleItem] ≠ ([] : List AnalysisItem)) ∧
    decodeHistory (loadHistory (saveEffect [sampleItem] none)) = some [sampleItem] :=
  ⟨by simp, (c3_persist_roundtrip [sampleItem] none (by simp)).2⟩

/-- Claim C3 counterexample: with the empty sequence the save effect leaves
a previously populated slot untouched, so the persist-then-reload round
trip returns the old records rather than the empty sequence — the claim
fails for zero-record sequences. -/
theorem c3_counterexample :
    saveEffect ([] : List AnalysisItem) (some (stringifyHistory [sampleItem])) =
      some (stringifyHistory [sampleItem]) ∧
    decodeHistory (loadHistory (saveEffect ([] : List AnalysisItem)
      (some (stringifyHistory [sampleItem])))) = some [sampleItem] ∧
    decodeHistory (loadHistory (saveEffect ([] : List AnalysisItem)
      (some (stringifyHistory [sampleItem])))) ≠ some ([] : List AnalysisItem) := by
  have hsv : saveEffect ([] : List AnalysisItem) (some (stringifyHistory [sampleItem])) =
      some (stringifyHistory [sampleItem]) := rfl
  have h2 : decodeHistory (loadHistory (saveEffect ([] : List AnalysisItem)
      (some (stringifyHistory [sampleItem])))) = some [sampleItem] := by
    rw [hsv, loadHistory_parsed (jsonParse_stringifyHistory [sampleItem]),
      decodeHistory_encodeHistory]
  refine ⟨hsv, h2, ?_⟩
  rw [h2]
  simp
